import Mathlib

/-!
Verification of the budou chunk-resolution engine (`budou/chunk.py`,
`budou/nlapisegmenter.py`, `budou/budou.py`) through a shallow embedding.

Python's `None / True / False` dependency values become `Dep.unset /
Dep.fwd / Dep.bwd`; words are lists of characters; fallible operations
(Python code that can raise) return `Option` or `Except`.
-/

namespace Budou

/-- Tri-state dependency of a chunk: Python `None` is `unset`, `True`
(attach to the following word) is `fwd`, `False` is `bwd`. -/
inductive Dep where
  | fwd
  | bwd
  | unset
deriving DecidableEq

/-- Embedding of `Chunk` (chunk.py).  A unit of word segmentation. -/
structure Chunk where
  word : List Char
  pos : Option String
  label : Option String
  dependency : Dep
deriving DecidableEq

def SPACE_POS : String := "SPACE"

def BREAK_POS : String := "BREAK"

/-- `Chunk.space()` classmethod: a single-space chunk with pos `SPACE`. -/
def Chunk.space : Chunk := ⟨[' '], some SPACE_POS, none, .unset⟩

/-- `Chunk.breakline()` classmethod: a newline chunk with pos `BREAK`. -/
def Chunk.breakline : Chunk := ⟨['\n'], some BREAK_POS, none, .unset⟩

/-- `Chunk.is_space`: the pos tag equals `SPACE`. -/
def Chunk.is_space (c : Chunk) : Bool := c.pos == some SPACE_POS

/-- Character ranges of `Chunk.has_cjk` (chunk.py lines 92-99). -/
def isCJKChar (ch : Char) : Bool :=
  let n := ch.toNat
  (4352 ≤ n && n ≤ 4607) || (11904 ≤ n && n ≤ 42191) || (43072 ≤ n && n ≤ 43135) ||
  (44032 ≤ n && n ≤ 55215) || (63744 ≤ n && n ≤ 64255) || (65072 ≤ n && n ≤ 65103) ||
  (65381 ≤ n && n ≤ 65500) || (131072 ≤ n && n ≤ 196607)

/-- `Chunk.has_cjk`: some character of the word is in a CJK range. -/
def Chunk.has_cjk (c : Chunk) : Bool := c.word.any isCJKChar

/-- `''.join(chunk.word for chunk in list)`. -/
def joinWords : List Chunk → List Char
  | [] => []
  | c :: rest => c.word ++ joinWords rest

/-- The Python comparison `chunk.dependency == direction` where
`direction` is a `bool`. -/
def depOfBool : Bool → Dep
  | true => .fwd
  | false => .bwd

/-- The merge test of `ChunkList._concatenate_inner` (chunk.py lines
181-186): matched dependency, or a space chunk in the backward pass. -/
def mergeCond (direction : Bool) (c : Chunk) : Bool :=
  c.dependency == depOfBool direction || (!direction && c.is_space)

/-- One iteration of the loop body of `ChunkList._concatenate_inner`
over the state `(tmp_bucket, target_chunks)`. -/
def concatInnerStep (direction : Bool) :
    List Chunk × List Chunk → Chunk → List Chunk × List Chunk
  | (bucket, target), c =>
    if mergeCond direction c then (bucket ++ [c], target)
    else
      let b := bucket ++ [c]
      let b := if direction then b else b.reverse
      ([], target ++ [⟨joinWords b, c.pos, c.label, c.dependency⟩])

/-- `ChunkList._concatenate_inner(direction)` (chunk.py lines 170-198):
scan `self` (forward) or `self[::-1]` (backward), fold the loop body,
append the leftover bucket, and reverse the output in the backward case. -/
def concatenate_inner (direction : Bool) (l : List Chunk) : List Chunk :=
  let source := if direction then l else l.reverse
  let p := source.foldl (concatInnerStep direction) ([], [])
  let target := p.2 ++ p.1
  if direction then target else target.reverse

/-- `ChunkList._insert_breaklines` (chunk.py lines 200-215).  Python
indexes `chunk.word[-1]`, which we model with `getLast?`; the two agree
whenever every word is non-empty (Python raises on an empty word). -/
def insert_breaklines : List Chunk → List Chunk
  | [] => []
  | c :: rest =>
    if c.word.getLast? == some ' ' && c.has_cjk then
      ⟨c.word.dropLast, c.pos, c.label, c.dependency⟩ :: Chunk.breakline ::
        insert_breaklines rest
    else c :: insert_breaklines rest

/-- `ChunkList.resolve_dependencies` (chunk.py lines 159-168): forward
pass, backward pass, breakline insertion. -/
def resolve_dependencies (l : List Chunk) : List Chunk :=
  insert_breaklines (concatenate_inner false (concatenate_inner true l))

/-- The scanning loop of `ChunkList.get_overlaps` (chunk.py lines
141-147) with the running character index `idx`. -/
def overlapsScan (offset length : Nat) : Nat → List Chunk → List Chunk
  | _, [] => []
  | idx, c :: rest =>
    if offset < idx + c.word.length && idx < offset + length then
      c :: overlapsScan offset length (idx + c.word.length) rest
    else
      overlapsScan offset length (idx + c.word.length) rest

/-- `ChunkList.get_overlaps(offset, length)` (chunk.py lines 130-147).
Python first evaluates `''.join(words)[offset]`, which raises
`IndexError` when `offset` is not inside the concatenated text; that
raise is modelled by `none`. -/
def get_overlaps (l : List Chunk) (offset length : Nat) : Option (List Chunk) :=
  match (joinWords l)[offset]? with
  | none => none
  | some ch =>
      some (overlapsScan (if ch = ' ' then offset + 1 else offset) length 0 l)

/-- `list.index(chunk)`: index of the first occurrence, `ValueError`
(here `none`) when absent.  Chunk objects compare by identity in
Python; structural first-match coincides with identity on lists without
duplicates. -/
def indexOf? : List Chunk → Chunk → Option Nat
  | [], _ => none
  | x :: rest, c => if x = c then some 0 else (indexOf? rest c).map (· + 1)

/-- Python `del l[a:b]` for non-negative bounds: drop positions
`a ≤ i < b`; a slice with `b ≤ a` removes nothing. -/
def delSlice (l : List Chunk) (a b : Nat) : List Chunk :=
  l.take a ++ l.drop (max a b)

/-- Python `list.insert(i, v)` for a non-negative index (clamped to the
length). -/
def insertAt (l : List Chunk) (i : Nat) (c : Chunk) : List Chunk :=
  l.take i ++ c :: l.drop i

/-- `ChunkList.swap(old_chunks, new_chunk)` (chunk.py lines 149-157).
`indexes[0]` on an empty index list raises `IndexError` (`none`); a
chunk absent from the list raises `ValueError` (`none`). -/
def swap (l old_chunks : List Chunk) (new_chunk : Chunk) : Option (List Chunk) := do
  let indexes ← old_chunks.mapM (indexOf? l)
  let i0 ← indexes.head?
  let il ← indexes.getLast?
  pure (insertAt (delSlice l i0 (il + 1)) i0 new_chunk)

/-- An entity span from the NL API: a content string and a begin offset. -/
structure Entity where
  content : List Char
  beginOffset : Nat
deriving DecidableEq

/-- `NLAPISegmenter._group_chunks_by_entities` (nlapisegmenter.py lines
139-154): for each entity, look up the overlapped chunks; skip the
entity when there are none, otherwise swap them for one merged chunk.
A raise inside `get_overlaps` or `swap` propagates (`none`). -/
def group_chunks_by_entities : List Chunk → List Entity → Option (List Chunk)
  | chunks, [] => some chunks
  | chunks, e :: rest => do
    let cs ← get_overlaps chunks e.beginOffset e.content.length
    if cs.isEmpty then group_chunks_by_entities chunks rest
    else
      let nc : Chunk := ⟨joinWords cs, none, none, .unset⟩
      let chunks' ← swap chunks cs nc
      group_chunks_by_entities chunks' rest

/-- A `span` element built by `ChunkList.html_serialize`: its text, its
attribute assignments in insertion order, and its tail text (the plain
text that follows it, `None` when unset). -/
structure SpanEle where
  text : List Char
  attrib : List (String × String)
  tail : Option (List Char)
deriving DecidableEq

/-- The enclosing document element of `html_serialize`: its leading text
(`None` when unset) and its child spans. -/
structure HtmlDoc where
  text : Option (List Char)
  children : List SpanEle
deriving DecidableEq

/-- `doc.getchildren()[-1].tail = w` / `+= w`: append `w` to the tail of
the last child (a `None` tail counts as empty). -/
def appendTailLast : List SpanEle → List Char → List SpanEle
  | [], _ => []
  | [e], w => [⟨e.text, e.attrib, some ((e.tail.getD []) ++ w)⟩]
  | e :: e2 :: rest, w => e :: appendTailLast (e2 :: rest) w

/-- Python dict assignment `d[k] = v` on an association list. -/
def dictSet : List (String × String) → String → String → List (String × String)
  | [], k, v => [(k, v)]
  | (k', v') :: rest, k, v =>
    if k' = k then (k, v) :: rest else (k', v') :: dictSet rest k v

/-- `for k, v in attributes.items(): ele.attrib[k] = v` starting from an
empty attribute dict. -/
def dictOfList (attributes : List (String × String)) : List (String × String) :=
  attributes.foldl (fun d kv => dictSet d kv.1 kv.2) []

/-- The wrapping test of `html_serialize` (chunk.py line 243):
`chunk.has_cjk() and not (max_length and len(chunk.word) > max_length)`.
Python truthiness: `max_length` of `None` or `0` makes the second
conjunct falsy, so the guard never suppresses wrapping then. -/
def wrapCond (max_length : Option Nat) (c : Chunk) : Bool :=
  c.has_cjk && !(match max_length with
    | none => false
    | some m => !(m == 0) && decide (c.word.length > m))

/-- One iteration of the loop body of `ChunkList.html_serialize`
(chunk.py lines 230-261) over the document being built. -/
def buildStep (attributes : List (String × String)) (max_length : Option Nat)
    (doc : HtmlDoc) (c : Chunk) : HtmlDoc :=
  if c.is_space then
    if !doc.children.isEmpty then
      ⟨doc.text, appendTailLast doc.children [' ']⟩
    else
      match doc.text with
      | some t => ⟨some (t ++ [' ']), doc.children⟩
      | none => doc
  else
    if wrapCond max_length c then
      ⟨doc.text, doc.children ++ [⟨c.word, dictOfList attributes, none⟩]⟩
    else
      if !doc.children.isEmpty then
        ⟨doc.text, appendTailLast doc.children c.word⟩
      else
        match doc.text with
        | none => ⟨some c.word, doc.children⟩
        | some t => ⟨some (t ++ c.word), doc.children⟩

/-- The element tree built by `ChunkList.html_serialize` before it is
handed to `ET.tostring` / `html5lib.serialize` (external libraries). -/
def html_build (attributes : List (String × String)) (max_length : Option Nat)
    (l : List Chunk) : HtmlDoc :=
  l.foldl (buildStep attributes max_length) ⟨none, []⟩

/-- Concatenation of all tail texts of the child spans, in order. -/
def joinTails : List SpanEle → List Char
  | [] => []
  | e :: rest => (e.tail.getD []) ++ joinTails rest

/-- All plain (unwrapped) text of the document: the leading text
followed by every span's tail. -/
def plainTextOf (d : HtmlDoc) : List Char :=
  d.text.getD [] ++ joinTails d.children

/-- Python tuple comparison on `(key, value)` attribute items, used by
`sorted(attributes.items())`. -/
def attribPairLe (a b : String × String) : Prop :=
  a.1 < b.1 ∨ (a.1 = b.1 ∧ a.2 ≤ b.2)

instance : DecidableRel attribPairLe := fun a b => by
  unfold attribPairLe; infer_instance

/-- `sorted(attributes.items())` from `Budou._spanize` (budou.py). -/
def sortedAttributeItems (attributes : List (String × String)) :
    List (String × String) :=
  List.insertionSort attribPairLe attributes

/-- The attribute string of `Budou._spanize` (budou.py lines 463-465):
`' '.join('%s="%s"' % (k, v) for k, v in sorted(attributes.items()))`. -/
def attribute_str (attributes : List (String × String)) : String :=
  " ".intercalate ((sortedAttributeItems attributes).map
    (fun kv => kv.1 ++ "=\"" ++ kv.2 ++ "\""))

/-- `Budou._spanize` (budou.py lines 446-467): spaces pass through,
every other chunk is wrapped in a span with the sorted attribute
string. -/
def spanize (chunks : List Chunk) (attributes : List (String × String)) : String :=
  String.join (chunks.map (fun c =>
    if c.is_space then String.mk c.word
    else "<span " ++ attribute_str attributes ++ ">" ++ String.mk c.word ++ "</span>"))

/-- A Python value handed to the `ChunkList` sequence interface: either
a `Chunk` instance or some other object. -/
inductive PyVal where
  | chunk : Chunk → PyVal
  | other : String → PyVal
deriving DecidableEq

/-- Exceptions raised by the `ChunkList` sequence interface. -/
inductive PyErr where
  | typeError
  | indexError
deriving DecidableEq

/-- `PyVal.isChunk`: `isinstance(val, Chunk)`. -/
def PyVal.isChunk : PyVal → Bool
  | .chunk _ => true
  | .other _ => false

/-- `ChunkList.check(val)` (chunk.py lines 109-111): raise `TypeError`
unless the value is a `Chunk`. -/
def check (v : PyVal) : Except PyErr Unit :=
  match v with
  | .chunk _ => .ok ()
  | .other _ => .error .typeError

/-- `ChunkList.insert(i, v)` (chunk.py lines 123-125): `check`, then
`list.insert` with Python's index clamping (negative indexes count from
the end). -/
def insertVal (l : List PyVal) (i : Int) (v : PyVal) : Except PyErr (List PyVal) := do
  let _ ← check v
  let n : Int := l.length
  let idx : Nat := (if i < 0 then max 0 (n + i) else min i n).toNat
  pure (l.take idx ++ v :: l.drop idx)

/-- `ChunkList.__setitem__(i, v)` (chunk.py lines 119-121): `check`,
then `self.list[i] = v`, which raises `IndexError` outside `[-n, n)`. -/
def setItemVal (l : List PyVal) (i : Int) (v : PyVal) : Except PyErr (List PyVal) := do
  let _ ← check v
  let n : Int := l.length
  if 0 ≤ i ∧ i < n then pure (l.set i.toNat v)
  else if -n ≤ i ∧ i < 0 then pure (l.set (i + n).toNat v)
  else throw .indexError

/-! Specification-side definitions, written from the words of the
specification and claims, to be compared with the source embeddings. -/

/-- Spec wording of the forward merge pass: scan left to right with an
accumulation bucket; a chunk whose dependency equals Forward is added
to the bucket without emitting; any other chunk is added, then the
whole bucket is emitted as one merged chunk whose word is the
concatenation of the bucket words in original order and whose pos,
label and dependency are those of the terminating chunk; a non-empty
bucket left at the end is appended as-is, unmerged. -/
def fwdGo (bucket : List Chunk) : List Chunk → List Chunk
  | [] => bucket
  | c :: rest =>
    if c.dependency == Dep.fwd then fwdGo (bucket ++ [c]) rest
    else
      ⟨joinWords (bucket ++ [c]), c.pos, c.label, c.dependency⟩ :: fwdGo [] rest

/-- The forward merge pass as the spec describes it. -/
def forward_merge (l : List Chunk) : List Chunk := fwdGo [] l

/-- Spec wording of the backward merge pass over the reversed list: a
chunk is absorbed into the bucket when its dependency is Backward or
when it is a Space chunk (always mergeable backward); on emission the
bucket is reversed before concatenation so the merged word keeps the
original left-to-right order. -/
def bwdGo (bucket : List Chunk) : List Chunk → List Chunk
  | [] => bucket
  | c :: rest =>
    if c.dependency == Dep.bwd || c.is_space then bwdGo (bucket ++ [c]) rest
    else
      ⟨joinWords (bucket ++ [c]).reverse, c.pos, c.label, c.dependency⟩ :: bwdGo [] rest

/-- The backward merge pass as the spec describes it: scan right to
left, then restore original order. -/
def backward_merge (l : List Chunk) : List Chunk := (bwdGo [] l.reverse).reverse

/-- Spec wording of breakline insertion for one chunk: when the word
ends with a literal space and the chunk has CJK characters, strip the
trailing space and insert a Breakline chunk immediately after;
otherwise leave the chunk unchanged. -/
def breaklineSpec (c : Chunk) : List Chunk :=
  if c.word.getLast? == some ' ' && c.has_cjk then
    [⟨c.word.dropLast, c.pos, c.label, c.dependency⟩, Chunk.breakline]
  else [c]

/-- Each chunk paired with its running start index in the concatenated
text, beginning at `idx`. -/
def chunkSpans (idx : Nat) : List Chunk → List (Chunk × Nat)
  | [] => []
  | c :: rest => (c, idx) :: chunkSpans (idx + c.word.length) rest

/-- Spec wording of `get_overlaps`: adjust the offset past a leading
space, then keep, in original order, exactly the chunks whose running
start index `idx` satisfies `offset < idx + len(word)` and
`idx < offset + length`. -/
def overlapsSpec (l : List Chunk) (offset length : Nat) : List Chunk :=
  let off := if (joinWords l)[offset]? == some ' ' then offset + 1 else offset
  ((chunkSpans 0 l).filter (fun p =>
    decide (off < p.2 + p.1.word.length) && decide (p.2 < off + length))).map (·.1)

/-- Claim C8's wrapping condition as stated: CJK and (no maximum length
configured, or the word fits). -/
def claimWrapCond (max_length : Option Nat) (c : Chunk) : Bool :=
  c.has_cjk && (match max_length with
    | none => true
    | some m => decide (c.word.length ≤ m))

/-- Claim C8's wrapping condition amended for Python truthiness: a
configured maximum of `0` is falsy and therefore imposes no limit. -/
def amendedWrapCond (max_length : Option Nat) (c : Chunk) : Bool :=
  c.has_cjk && (match max_length with
    | none => true
    | some m => m == 0 || decide (c.word.length ≤ m))

/-- `a` and `b` have the same characters at the same positions, except
that a space in `a` may be replaced by a newline in `b`.  Nothing is
added or lost. -/
inductive SpaceNl : List Char → List Char → Prop
  | nil : SpaceNl [] []
  | same (ch : Char) {a b : List Char} (h : SpaceNl a b) :
      SpaceNl (ch :: a) (ch :: b)
  | sub {a b : List Char} (h : SpaceNl a b) : SpaceNl (' ' :: a) ('\n' :: b)

/-! Concrete chunks used by counterexamples and witnesses. -/

/-- A plain one-character chunk `a`. -/
def chA : Chunk := ⟨['a'], none, none, .unset⟩

/-- A plain one-character chunk `b`. -/
def chB : Chunk := ⟨['b'], none, none, .unset⟩

/-- A plain one-character chunk `c`. -/
def chC : Chunk := ⟨['c'], none, none, .unset⟩

/-- A replacement chunk `xy`. -/
def chNew : Chunk := ⟨['x', 'y'], none, none, .unset⟩

/-- A CJK chunk of two characters. -/
def chCJK : Chunk := ⟨['你', '好'], none, none, .unset⟩

/-- A Latin chunk. -/
def chLatin : Chunk := ⟨['h', 'i'], none, none, .unset⟩

/-- A CJK chunk with a trailing space, as produced by the backward merge
pass absorbing a space chunk. -/
def chCJKspace : Chunk := ⟨['你', ' '], none, none, .unset⟩

end Budou

namespace Budou

/-! Helper lemmas. -/

lemma mergeCond_true (c : Chunk) : mergeCond true c = (c.dependency == Dep.fwd) := by
  simp [mergeCond, depOfBool]

lemma mergeCond_false (c : Chunk) :
    mergeCond false c = (c.dependency == Dep.bwd || c.is_space) := by
  simp [mergeCond, depOfBool]

lemma foldl_concatInnerStep_true (rest : List Chunk) :
    ∀ bucket target : List Chunk,
      (rest.foldl (concatInnerStep true) (bucket, target)).2 ++
        (rest.foldl (concatInnerStep true) (bucket, target)).1 =
      target ++ fwdGo bucket rest := by
  induction rest with
  | nil => intro bucket target; simp [fwdGo]
  | cons c rest ih =>
    intro bucket target
    simp only [List.foldl_cons, concatInnerStep, fwdGo, mergeCond_true]
    by_cases h : c.dependency == Dep.fwd
    · simp only [h, if_true, ih]
    · simp only [h, if_false, Bool.false_eq_true, ih, List.append_assoc,
        List.singleton_append, if_true]

lemma foldl_concatInnerStep_false (rest : List Chunk) :
    ∀ bucket target : List Chunk,
      (rest.foldl (concatInnerStep false) (bucket, target)).2 ++
        (rest.foldl (concatInnerStep false) (bucket, target)).1 =
      target ++ bwdGo bucket rest := by
  induction rest with
  | nil => intro bucket target; simp [bwdGo]
  | cons c rest ih =>
    intro bucket target
    simp only [List.foldl_cons, concatInnerStep, bwdGo, mergeCond_false]
    by_cases h : (c.dependency == Dep.bwd || c.is_space) = true
    · simp only [h, if_true, ih]
    · simp only [h, if_false, Bool.false_eq_true, ih, List.append_assoc,
        List.singleton_append]

lemma concat_inner_fwd_eq (l : List Chunk) :
    concatenate_inner true l = forward_merge l := by
  have h := foldl_concatInnerStep_true l [] []
  simp only [List.nil_append] at h
  show (l.foldl (concatInnerStep true) ([], [])).2 ++
      (l.foldl (concatInnerStep true) ([], [])).1 = fwdGo [] l
  exact h

lemma concat_inner_bwd_eq (l : List Chunk) :
    concatenate_inner false l = backward_merge l := by
  have h := foldl_concatInnerStep_false l.reverse [] []
  simp only [List.nil_append] at h
  show ((l.reverse.foldl (concatInnerStep false) ([], [])).2 ++
      (l.reverse.foldl (concatInnerStep false) ([], [])).1).reverse =
    (bwdGo [] l.reverse).reverse
  rw [h]

lemma joinWords_append (a b : List Chunk) :
    joinWords (a ++ b) = joinWords a ++ joinWords b := by
  induction a with
  | nil => simp [joinWords]
  | cons c rest ih => simp [joinWords, ih]

lemma joinWords_fwdGo (rest : List Chunk) :
    ∀ bucket, joinWords (fwdGo bucket rest) = joinWords bucket ++ joinWords rest := by
  induction rest with
  | nil => intro bucket; simp [fwdGo, joinWords]
  | cons c rest ih =>
    intro bucket
    simp only [fwdGo]
    by_cases h : c.dependency == Dep.fwd
    · simp only [h, if_true, ih, joinWords_append, joinWords, List.append_assoc,
        List.append_nil]
    · simp only [h, if_false, Bool.false_eq_true, joinWords, ih, joinWords_append,
        List.append_assoc, List.append_nil, List.nil_append]

lemma joinWords_bwdGo (rest : List Chunk) :
    ∀ bucket, joinWords (bwdGo bucket rest).reverse =
      joinWords rest.reverse ++ joinWords bucket.reverse := by
  induction rest with
  | nil => intro bucket; simp [bwdGo, joinWords]
  | cons c rest ih =>
    intro bucket
    simp only [bwdGo]
    by_cases h : (c.dependency == Dep.bwd || c.is_space) = true
    · simp only [h, if_true, ih, List.reverse_append, List.reverse_cons,
        List.reverse_nil, List.nil_append, joinWords_append, joinWords,
        List.append_assoc, List.append_nil]
    · simp only [h, if_false, Bool.false_eq_true, List.reverse_cons, joinWords_append,
        joinWords, ih, List.reverse_append, List.reverse_nil, List.nil_append,
        List.append_assoc, List.append_nil]

lemma joinWords_concatenate_inner (d : Bool) (l : List Chunk) :
    joinWords (concatenate_inner d l) = joinWords l := by
  cases d
  · rw [concat_inner_bwd_eq]
    unfold backward_merge
    rw [joinWords_bwdGo]
    simp [joinWords]
  · rw [concat_inner_fwd_eq]
    unfold forward_merge
    rw [joinWords_fwdGo]
    simp [joinWords]

lemma fwdGo_words_ne (rest : List Chunk) :
    ∀ bucket, (∀ x ∈ bucket, x.word ≠ []) → (∀ x ∈ rest, x.word ≠ []) →
      ∀ x ∈ fwdGo bucket rest, x.word ≠ [] := by
  induction rest with
  | nil => intro bucket hb _ x hx; exact hb x hx
  | cons c rest ih =>
    intro bucket hb hr x hx
    have hc : c.word ≠ [] := hr c (by simp)
    have hr' : ∀ x ∈ rest, x.word ≠ [] := fun y hy => hr y (by simp [hy])
    simp only [fwdGo] at hx
    by_cases h : c.dependency == Dep.fwd
    · rw [if_pos h] at hx
      refine ih (bucket ++ [c]) ?_ hr' x hx
      intro y hy
      rcases List.mem_append.mp hy with hy | hy
      · exact hb y hy
      · simp at hy; subst hy; exact hc
    · rw [if_neg h] at hx
      rcases List.mem_cons.mp hx with hx | hx
      · subst hx
        simp only [joinWords_append, joinWords, List.append_nil, ne_eq,
          List.append_eq_nil]
        intro hcontra
        exact hc hcontra.2
      · exact ih [] (by simp) hr' x hx

lemma bwdGo_words_ne (rest : List Chunk) :
    ∀ bucket, (∀ x ∈ bucket, x.word ≠ []) → (∀ x ∈ rest, x.word ≠ []) →
      ∀ x ∈ bwdGo bucket rest, x.word ≠ [] := by
  induction rest with
  | nil => intro bucket hb _ x hx; exact hb x hx
  | cons c rest ih =>
    intro bucket hb hr x hx
    have hc : c.word ≠ [] := hr c (by simp)
    have hr' : ∀ x ∈ rest, x.word ≠ [] := fun y hy => hr y (by simp [hy])
    simp only [bwdGo] at hx
    by_cases h : (c.dependency == Dep.bwd || c.is_space) = true
    · rw [if_pos h] at hx
      refine ih (bucket ++ [c]) ?_ hr' x hx
      intro y hy
      rcases List.mem_append.mp hy with hy | hy
      · exact hb y hy
      · simp at hy; subst hy; exact hc
    · rw [if_neg h] at hx
      rcases List.mem_cons.mp hx with hx | hx
      · subst hx
        simp only [List.reverse_append, List.reverse_cons, List.reverse_nil,
          List.nil_append, List.singleton_append, joinWords, ne_eq,
          List.append_eq_nil]
        intro hcontra
        exact hc hcontra.1
      · exact ih [] (by simp) hr' x hx

lemma concatenate_inner_words_ne (d : Bool) (l : List Chunk)
    (h : ∀ x ∈ l, x.word ≠ []) : ∀ x ∈ concatenate_inner d l, x.word ≠ [] := by
  cases d
  · rw [concat_inner_bwd_eq]
    unfold backward_merge
    intro x hx
    rw [List.mem_reverse] at hx
    refine bwdGo_words_ne l.reverse [] (by simp) ?_ x hx
    intro y hy
    exact h y (List.mem_reverse.mp hy)
  · rw [concat_inner_fwd_eq]
    unfold forward_merge
    exact fwdGo_words_ne l [] (by simp) h

lemma SpaceNl.rfl : ∀ a : List Char, SpaceNl a a
  | [] => .nil
  | c :: rest => .same c (SpaceNl.rfl rest)

lemma SpaceNl.append {a b c d : List Char} (h1 : SpaceNl a b) (h2 : SpaceNl c d) :
    SpaceNl (a ++ c) (b ++ d) := by
  induction h1 with
  | nil => exact h2
  | same ch h ih => exact .same ch ih
  | sub h ih => exact .sub ih

lemma word_getLast_split : ∀ {w : List Char} {ch : Char},
    w.getLast? = some ch → w = w.dropLast ++ [ch]
  | [], _, h => by simp at h
  | [x], ch, h => by
    simp only [List.getLast?_singleton, Option.some.injEq] at h
    subst h
    simp
  | x :: y :: t, ch, h => by
    rw [List.getLast?_cons_cons] at h
    have ih := word_getLast_split (w := y :: t) h
    calc x :: y :: t = x :: ((y :: t).dropLast ++ [ch]) := by rw [← ih]
    _ = (x :: y :: t).dropLast ++ [ch] := by simp

lemma spaceNl_insert_breaklines (l : List Chunk) (h : ∀ c ∈ l, c.word ≠ []) :
    SpaceNl (joinWords l) (joinWords (insert_breaklines l)) := by
  induction l with
  | nil => exact .nil
  | cons c rest ih =>
    have hr : ∀ x ∈ rest, x.word ≠ [] := fun y hy => h y (by simp [hy])
    simp only [insert_breaklines, joinWords]
    by_cases hcond : (c.word.getLast? == some ' ' && c.has_cjk) = true
    · rw [if_pos hcond]
      have hlast : c.word.getLast? = some ' ' := by
        have := (Bool.and_eq_true _ _).mp hcond
        exact beq_iff_eq.mp this.1
      have hsplit := word_getLast_split hlast
      simp only [joinWords, Chunk.breakline]
      nth_rewrite 1 [hsplit]
      simpa [List.append_assoc] using
        SpaceNl.append (SpaceNl.rfl c.word.dropLast) (SpaceNl.sub (ih hr))
    · rw [if_neg hcond]
      simp only [joinWords]
      exact SpaceNl.append (SpaceNl.rfl c.word) (ih hr)

/-! Claim theorems. -/

/-- C1: for every chunk list of non-empty words, the concatenation of
all chunk words after `resolve_dependencies` (both directional merge
passes followed by breakline insertion) equals the concatenation
before the call, except that a space may be replaced in place by the
inserted breakline's newline; no other characters are added or lost. -/
theorem resolve_dependencies_word_preservation (l : List Chunk)
    (h : ∀ c ∈ l, c.word ≠ []) :
    SpaceNl (joinWords l) (joinWords (resolve_dependencies l)) := by
  unfold resolve_dependencies
  have h1 := concatenate_inner_words_ne true l h
  have h2 := concatenate_inner_words_ne false _ h1
  have e1 : joinWords l =
      joinWords (concatenate_inner false (concatenate_inner true l)) := by
    rw [joinWords_concatenate_inner, joinWords_concatenate_inner]
  rw [e1]
  exact spaceNl_insert_breaklines _ h2

/-- Witness for C1 at a concrete input: a CJK chunk with a trailing
space, whose space becomes a newline. -/
theorem resolve_dependencies_word_preservation_witness :
    SpaceNl (joinWords [chCJKspace]) (joinWords (resolve_dependencies [chCJKspace])) :=
  resolve_dependencies_word_preservation [chCJKspace] (by decide)

/-- C2: the forward merge pass (`_concatenate_inner` with direction
`True`) equals the left-to-right bucket recursion of the spec: a chunk
with Forward dependency is bucketed without emitting; any other chunk
terminates the bucket, which is emitted as one merged chunk carrying
the concatenated words in original order and the terminator's pos,
label and dependency; a trailing non-empty bucket is appended as-is. -/
theorem concatenate_inner_forward_spec (l : List Chunk) :
    concatenate_inner true l = forward_merge l :=
  concat_inner_fwd_eq l

/-- C3: the backward merge pass (`_concatenate_inner` with direction
`False`) equals the right-to-left bucket recursion of the spec, in
which a Space chunk is always absorbed into the bucket regardless of
its dependency field, and the bucket is reversed before word
concatenation so the merged chunk keeps the original left-to-right
order. -/
theorem concatenate_inner_backward_spec (l : List Chunk) :
    concatenate_inner false l = backward_merge l :=
  concat_inner_bwd_eq l

/-- C4: on a chunk list of non-empty words, breakline insertion
transforms exactly the chunks whose word ends in a literal space and
which contain CJK characters — stripping the trailing space and
inserting a Breakline chunk immediately after — and leaves every other
chunk unchanged in its relative order. -/
theorem insert_breaklines_spec (l : List Chunk) (_h : ∀ c ∈ l, c.word ≠ []) :
    insert_breaklines l = l.flatMap breaklineSpec := by
  clear _h
  induction l with
  | nil => simp [insert_breaklines]
  | cons c rest ih =>
    simp only [insert_breaklines, List.flatMap_cons, breaklineSpec]
    by_cases hcond : (c.word.getLast? == some ' ' && c.has_cjk) = true
    · rw [if_pos hcond, if_pos hcond, ih]
      simp
    · rw [if_neg hcond, if_neg hcond, ih]
      simp

/-- Witness for C4 at a concrete input: one CJK chunk with a trailing
space and one Latin chunk. -/
theorem insert_breaklines_spec_witness :
    insert_breaklines [chCJKspace, chLatin] =
      [chCJKspace, chLatin].flatMap breaklineSpec :=
  insert_breaklines_spec [chCJKspace, chLatin] (by decide)

lemma overlapsScan_eq_filter (off len : Nat) (l : List Chunk) :
    ∀ idx, overlapsScan off len idx l =
      ((chunkSpans idx l).filter (fun p =>
        decide (off < p.2 + p.1.word.length) && decide (p.2 < off + len))).map (·.1) := by
  induction l with
  | nil => intro idx; simp [overlapsScan, chunkSpans]
  | cons c rest ih =>
    intro idx
    simp only [overlapsScan, chunkSpans, List.filter_cons]
    by_cases h : (decide (off < idx + c.word.length) && decide (idx < off + len)) = true
    · rw [if_pos h, if_pos h]
      simp [ih]
    · rw [if_neg h, if_neg h]
      exact ih _

/-- C5: whenever `offset` indexes into the concatenated text (Python
raises `IndexError` otherwise), `get_overlaps` first bumps the offset
past a leading space and then returns, in original order, exactly the
chunks whose running start index `idx` satisfies
`offset < idx + len(word)` and `idx < offset + length`. -/
theorem get_overlaps_spec (l : List Chunk) (offset length : Nat)
    (h : offset < (joinWords l).length) :
    get_overlaps l offset length = some (overlapsSpec l offset length) := by
  obtain ⟨ch, hch⟩ : ∃ ch, (joinWords l)[offset]? = some ch :=
    ⟨(joinWords l)[offset], List.getElem?_eq_getElem h⟩
  simp only [get_overlaps, overlapsSpec, hch]
  by_cases hsp : ch = ' '
  · subst hsp
    simp [overlapsScan_eq_filter]
  · simp [hsp, overlapsScan_eq_filter]

/-- Witness for C5 at a concrete input: two one-character chunks and a
range that overlaps only the first. -/
theorem get_overlaps_spec_witness :
    get_overlaps [chA, chB] 0 1 = some (overlapsSpec [chA, chB] 0 1) :=
  get_overlaps_spec [chA, chB] 0 1 (by decide)

lemma indexOf?_append_of_not_mem {pre rest : List Chunk} {c : Chunk}
    (h : c ∉ pre) :
    indexOf? (pre ++ rest) c = (indexOf? rest c).map (· + pre.length) := by
  induction pre with
  | nil =>
    simp only [List.nil_append, List.length_nil]
    cases indexOf? rest c <;> simp
  | cons x p ih =>
    have hx : ¬x = c := fun hxc => h (by simp [hxc])
    have hp : c ∉ p := fun hcp => h (by simp [hcp])
    rw [List.cons_append]
    show (if x = c then some 0 else (indexOf? (p ++ rest) c).map (· + 1)) = _
    rw [if_neg hx, ih hp]
    cases indexOf? rest c <;> simp +arith

lemma mapM_indexOf_contig (mid : List Chunk) :
    ∀ pre post : List Chunk, (pre ++ mid ++ post).Nodup →
      mid.mapM (indexOf? (pre ++ mid ++ post)) =
        some (List.range' pre.length mid.length) := by
  induction mid with
  | nil => intro pre post _; rfl
  | cons m0 m ih =>
    intro pre post h
    have hm0 : m0 ∉ pre := by
      intro hmem
      rw [List.append_assoc, List.nodup_append] at h
      exact h.2.2 hmem (by simp)
    have hfirst : indexOf? (pre ++ (m0 :: m) ++ post) m0 = some pre.length := by
      rw [List.append_assoc, indexOf?_append_of_not_mem hm0]
      simp [indexOf?]
    have hrest : m.mapM (indexOf? (pre ++ (m0 :: m) ++ post)) =
        some (List.range' (pre.length + 1) m.length) := by
      have := ih (pre ++ [m0]) post (by simpa [List.append_assoc] using h)
      simpa [List.append_assoc] using this
    rw [List.mapM_cons, hfirst, hrest]
    simp [List.range'_succ]

lemma range'_head? (s n : Nat) : (List.range' s (n + 1)).head? = some s := by
  rw [List.range'_succ]
  rfl

lemma range'_getLast? (s n : Nat) :
    (List.range' s (n + 1)).getLast? = some (s + n) := by
  induction n generalizing s with
  | zero => simp [List.range'_succ, List.range']
  | succ n ih =>
    rw [List.range'_succ, List.range'_succ, List.getLast?_cons_cons,
      ← List.range'_succ, ih (s + 1)]
    congr 1
    omega

/-- C6 counterexample: `swap` does not fail fast on a non-contiguous
target.  Passing the non-contiguous chunks `a` and `c` of the list
`[a, b, c]` succeeds and silently deletes the intervening chunk `b`,
returning `[xy]` instead of raising a diagnostic. -/
theorem swap_noncontiguous_counterexample :
    swap [chA, chB, chC] [chA, chC] chNew = some [chNew] := by decide

/-- C6 amended: `swap` raises (`IndexError` on `indexes[0]`) when
`old_chunks` is empty; when `old_chunks` are exactly a contiguous
segment of the (duplicate-free) list given in list order, it replaces
that inclusive index range with `new_chunk`.  Non-contiguous targets
are not detected: the whole span between the first and last located
indexes is replaced (see the counterexample). -/
theorem swap_amended :
    (∀ (l : List Chunk) (nc : Chunk), swap l [] nc = none) ∧
    (∀ (pre mid post : List Chunk) (c0 nc : Chunk),
      (pre ++ (c0 :: mid) ++ post).Nodup →
      swap (pre ++ (c0 :: mid) ++ post) (c0 :: mid) nc =
        some (pre ++ nc :: post)) := by
  constructor
  · intro l nc
    rfl
  · intro pre mid post c0 nc h
    have hmapM := mapM_indexOf_contig (c0 :: mid) pre post h
    have hlen : (pre ++ (c0 :: mid)).length = pre.length + mid.length + 1 := by
      simp +arith
    have htake : (pre ++ (c0 :: mid) ++ post).take pre.length = pre := by
      rw [List.append_assoc]
      exact List.take_left' rfl
    have hdrop : (pre ++ (c0 :: mid) ++ post).drop (pre.length + mid.length + 1) =
        post :=
      List.drop_left' hlen
    have hdel : delSlice (pre ++ (c0 :: mid) ++ post) pre.length
        (pre.length + mid.length + 1) = pre ++ post := by
      unfold delSlice
      rw [Nat.max_eq_right (by omega), htake, hdrop]
    unfold swap
    rw [hmapM]
    simp only [List.length_cons, Option.bind_eq_bind, Option.some_bind,
      range'_head?, range'_getLast?]
    rw [hdel]
    unfold insertAt
    rw [List.take_left' rfl, List.drop_left' rfl]
    rfl

/-- Witness for C6 amended at a concrete input: replacing the middle
chunk of `[a, b, c]` with `xy` yields `[a, xy, c]`. -/
theorem swap_amended_witness :
    swap [chA, chB, chC] [chB] chNew = some [chA, chNew, chC] := by
  have h := swap_amended.2 [chA] [] [chC] chB chNew (by decide)
  simpa using h

/-- C7 counterexample: entity grouping is not raise-free for every
non-negative offset.  On an empty `ChunkList`, looking up the entity
offset `0` indexes `''[0]` in `get_overlaps`, which raises
`IndexError` (modelled by `none`) instead of silently skipping. -/
theorem group_entities_counterexample :
    group_chunks_by_entities [] [⟨['x'], 0⟩] = none := by decide

/-- C7 amended: for entity spans whose begin offset lies inside the
concatenated text but which overlap no chunk (`get_overlaps` returns
an empty list), entity grouping silently skips every such span,
performs no merge, and returns the list unchanged.  Offsets at or past
the end of the text — including any offset on an empty list — instead
raise `IndexError` inside `get_overlaps`. -/
theorem group_entities_skip (l : List Chunk) (es : List Entity)
    (h : ∀ e ∈ es, e.beginOffset < (joinWords l).length ∧
      get_overlaps l e.beginOffset e.content.length = some []) :
    group_chunks_by_entities l es = some l := by
  induction es with
  | nil => rfl
  | cons e rest ih =>
    have he := h e (by simp)
    simp only [group_chunks_by_entities, Option.bind_eq_bind, he.2,
      Option.some_bind, List.isEmpty_nil, if_true]
    exact ih (fun e' he' => h e' (by simp [he']))

/-- Witness for C7 amended at a concrete input: a zero-length entity at
offset `0` over the list `[a]` overlaps nothing and is skipped. -/
theorem group_entities_skip_witness :
    group_chunks_by_entities [chA] [⟨[], 0⟩] = some [chA] :=
  group_entities_skip [chA] [⟨[], 0⟩] (by decide)

lemma appendTailLast_map (ch : List SpanEle) (w : List Char) :
    (appendTailLast ch w).map (fun e => (e.text, e.attrib)) =
      ch.map (fun e => (e.text, e.attrib)) := by
  induction ch with
  | nil => rfl
  | cons e rest ih =>
    cases rest with
    | nil => rfl
    | cons e2 r => simp only [appendTailLast, List.map_cons, ih]

lemma joinTails_append (a b : List SpanEle) :
    joinTails (a ++ b) = joinTails a ++ joinTails b := by
  induction a with
  | nil => rfl
  | cons e rest ih => simp [joinTails, ih]

lemma joinTails_appendTailLast (ch : List SpanEle) (w : List Char) (h : ch ≠ []) :
    joinTails (appendTailLast ch w) = joinTails ch ++ w := by
  induction ch with
  | nil => cases h rfl
  | cons e rest ih =>
    cases rest with
    | nil => simp [appendTailLast, joinTails]
    | cons e2 r =>
      simp only [appendTailLast, joinTails, ih (by simp), List.append_assoc]

lemma buildStep_children_map (attrs : List (String × String)) (ml : Option Nat)
    (d : HtmlDoc) (c : Chunk) :
    (buildStep attrs ml d c).children.map (fun e => (e.text, e.attrib)) =
      d.children.map (fun e => (e.text, e.attrib)) ++
        (if (!c.is_space && wrapCond ml c) = true
         then [(c.word, dictOfList attrs)] else []) := by
  obtain ⟨dt, dc⟩ := d
  by_cases hs : c.is_space = true
  · cases dc with
    | nil => cases dt <;> simp [buildStep, hs]
    | cons e r => simp [buildStep, hs, appendTailLast_map]
  · by_cases hw : wrapCond ml c = true
    · simp [buildStep, hs, hw]
    · cases dc with
      | nil => cases dt <;> simp [buildStep, hs, hw]
      | cons e r => simp [buildStep, hs, hw, appendTailLast_map]

lemma buildStep_plainText (attrs : List (String × String)) (ml : Option Nat)
    (d : HtmlDoc) (c : Chunk) (hs : c.is_space = false) :
    plainTextOf (buildStep attrs ml d c) =
      plainTextOf d ++ (if wrapCond ml c = true then [] else c.word) := by
  obtain ⟨dt, dc⟩ := d
  by_cases hw : wrapCond ml c = true
  · simp [buildStep, hs, hw, plainTextOf, joinTails_append, joinTails]
  · cases dc with
    | nil => cases dt <;> simp [buildStep, hs, hw, plainTextOf, joinTails]
    | cons e r =>
      simp [buildStep, hs, hw, plainTextOf,
        joinTails_appendTailLast (e :: r) c.word (by simp), List.append_assoc]

lemma html_children_foldl (attrs : List (String × String)) (ml : Option Nat)
    (l : List Chunk) :
    ∀ d : HtmlDoc, ((l.foldl (buildStep attrs ml) d).children.map
        (fun e => (e.text, e.attrib))) =
      d.children.map (fun e => (e.text, e.attrib)) ++
        (l.filter (fun c => !c.is_space && wrapCond ml c)).map
          (fun c => (c.word, dictOfList attrs)) := by
  induction l with
  | nil => intro d; simp
  | cons c rest ih =>
    intro d
    rw [List.foldl_cons, ih, buildStep_children_map, List.filter_cons]
    by_cases h : (!c.is_space && wrapCond ml c) = true
    · simp [h]
    · simp [h]

lemma html_plainText_foldl (attrs : List (String × String)) (ml : Option Nat)
    (l : List Chunk) :
    (∀ c ∈ l, c.is_space = false) →
      ∀ d : HtmlDoc, plainTextOf (l.foldl (buildStep attrs ml) d) =
        plainTextOf d ++ joinWords (l.filter (fun c => !wrapCond ml c)) := by
  induction l with
  | nil => intro _ d; simp [joinWords]
  | cons c rest ih =>
    intro h d
    rw [List.foldl_cons, ih (fun x hx => h x (by simp [hx])),
      buildStep_plainText attrs ml d c (h c (by simp)), List.filter_cons]
    by_cases hw : wrapCond ml c = true
    · simp [hw]
    · simp [hw, joinWords, List.append_assoc]

lemma wrapCond_eq_amended (ml : Option Nat) (c : Chunk) :
    wrapCond ml c = amendedWrapCond ml c := by
  unfold wrapCond amendedWrapCond
  cases ml with
  | none => rfl
  | some m =>
    cases m with
    | zero => simp
    | succ k =>
      by_cases hlen : c.word.length ≤ k + 1
      · simp [hlen, Nat.not_lt.mpr hlen]
      · simp [hlen, Nat.lt_of_not_le hlen]

/-- C8 counterexample: with a configured maximum length of `0` (falsy
in Python), `html_serialize` wraps a CJK chunk of length 2 in its own
span even though the claim's condition (word length at most the
maximum) is false, so the claimed iff fails at this input. -/
theorem html_wrap_counterexample :
    ((html_build [] (some 0) [chCJK]).children.map (fun e => e.text) =
      [['你', '好']]) ∧
    claimWrapCond (some 0) chCJK = false := by decide

/-- C8 amended: a non-space chunk is wrapped in a span carrying the
given attributes iff it has CJK characters and (no maximum length is
configured, or the configured maximum is `0` — falsy in Python and
hence no limit — or the word's length is at most the maximum); every
other non-space chunk's word is appended as plain content (leading
document text or the preceding span's tail), never in its own span. -/
theorem html_serialize_wrap_amended (attrs : List (String × String))
    (ml : Option Nat) (l : List Chunk) :
    ((html_build attrs ml l).children.map (fun e => (e.text, e.attrib)) =
      (l.filter (fun c => !c.is_space && amendedWrapCond ml c)).map
        (fun c => (c.word, dictOfList attrs))) ∧
    ((∀ c ∈ l, c.is_space = false) →
      plainTextOf (html_build attrs ml l) =
        joinWords (l.filter (fun c => !amendedWrapCond ml c))) := by
  constructor
  · have h := html_children_foldl attrs ml l ⟨none, []⟩
    simp only [wrapCond_eq_amended] at h
    simpa [html_build] using h
  · intro hns
    have h := html_plainText_foldl attrs ml l hns ⟨none, []⟩
    simp only [wrapCond_eq_amended] at h
    simpa [html_build, plainTextOf, joinTails] using h

/-- Witness for C8 amended at a concrete input: a CJK chunk and a Latin
chunk with one attribute and no maximum length. -/
theorem html_serialize_wrap_amended_witness :
    ((html_build [("class", "chunk")] none [chCJK, chLatin]).children.map
        (fun e => (e.text, e.attrib)) =
      ([chCJK, chLatin].filter (fun c => !c.is_space && amendedWrapCond none c)).map
        (fun c => (c.word, dictOfList [("class", "chunk")]))) ∧
    plainTextOf (html_build [("class", "chunk")] none [chCJK, chLatin]) =
      joinWords ([chCJK, chLatin].filter (fun c => !amendedWrapCond none c)) :=
  ⟨(html_serialize_wrap_amended [("class", "chunk")] none [chCJK, chLatin]).1,
   (html_serialize_wrap_amended [("class", "chunk")] none [chCJK, chLatin]).2
     (by decide)⟩

instance : IsTotal (String × String) attribPairLe :=
  ⟨by
    intro a b
    rcases lt_trichotomy a.1 b.1 with h | h | h
    · exact Or.inl (Or.inl h)
    · rcases le_total a.2 b.2 with h2 | h2
      · exact Or.inl (Or.inr ⟨h, h2⟩)
      · exact Or.inr (Or.inr ⟨h.symm, h2⟩)
    · exact Or.inr (Or.inl h)⟩

instance : IsTrans (String × String) attribPairLe :=
  ⟨by
    intro a b c hab hbc
    rcases hab with h1 | ⟨e1, le1⟩
    · rcases hbc with h2 | ⟨e2, _⟩
      · exact Or.inl (h1.trans h2)
      · exact Or.inl (e2 ▸ h1)
    · rcases hbc with h2 | ⟨e2, le2⟩
      · exact Or.inl (lt_of_le_of_lt (le_of_eq e1) h2)
      · exact Or.inr ⟨e1.trans e2, le1.trans le2⟩⟩

instance : IsAntisymm (String × String) attribPairLe :=
  ⟨by
    intro a b hab hba
    rcases hab with h1 | ⟨e1, le1⟩
    · rcases hba with h2 | ⟨e2, _⟩
      · exact absurd h2 (lt_asymm h1)
      · exact absurd h1 (by rw [e2]; exact lt_irrefl _)
    · rcases hba with h2 | ⟨e2, le2⟩
      · exact absurd h2 (by rw [e1]; exact lt_irrefl _)
      · exact Prod.ext e1 (le_antisymm le1 le2)⟩

/-- C9 counterexample: `html_serialize` does not sort span attributes.
It copies them into the span element in map-iteration order, so the two
attribute maps `{b: 1, a: 2}` and `{a: 2, b: 1}` — equal as maps —
produce different span elements; under an attribute-order-preserving
serializer the output strings differ, refuting the claimed sortedness
of the serialization. -/
theorem attribute_order_counterexample :
    (html_build [("b", "1"), ("a", "2")] none [chCJK]).children ≠
      (html_build [("a", "2"), ("b", "1")] none [chCJK]).children := by decide

/-- C9 amended: the legacy serializer `Budou._spanize` (budou.py) does
render attributes sorted by name — any two attribute maps that are
equal as maps (permutations of the same key-value items) produce the
identical output string — whereas `ChunkList.html_serialize` stores
attributes on each span in map insertion order and leaves the rendered
order to the external `xml.etree` / `html5lib` serializers. -/
theorem spanize_sorted_amended (chunks : List Chunk)
    (d1 d2 : List (String × String)) (h : d1.Perm d2) :
    spanize chunks d1 = spanize chunks d2 := by
  have hsorted : sortedAttributeItems d1 = sortedAttributeItems d2 := by
    apply List.eq_of_perm_of_sorted
      (((List.perm_insertionSort attribPairLe d1).trans h).trans
        (List.perm_insertionSort attribPairLe d2).symm)
      (List.sorted_insertionSort attribPairLe d1)
      (List.sorted_insertionSort attribPairLe d2)
  unfold spanize attribute_str
  rw [hsorted]

/-- Witness for C9 amended at a concrete input: two insertion orders of
the same attribute map give the same `_spanize` output. -/
theorem spanize_sorted_amended_witness :
    spanize [chCJK] [("b", "1"), ("a", "2")] =
      spanize [chCJK] [("a", "2"), ("b", "1")] :=
  spanize_sorted_amended [chCJK] [("b", "1"), ("a", "2")]
    [("a", "2"), ("b", "1")] (by decide)

/-- C10: a non-`Chunk` value is rejected by both `insert` and item
assignment with `TypeError` before any mutation, and a successful
`insert` or assignment on an all-`Chunk` list yields an all-`Chunk`
list, so every element of a `ChunkList` is always a `Chunk`. -/
theorem chunklist_type_check (l : List PyVal) (i : Int) (v : PyVal) :
    (v.isChunk = false →
      insertVal l i v = .error .typeError ∧
        setItemVal l i v = .error .typeError) ∧
    (∀ l', (∀ x ∈ l, x.isChunk = true) →
      (insertVal l i v = .ok l' ∨ setItemVal l i v = .ok l') →
      ∀ x ∈ l', x.isChunk = true) := by
  constructor
  · intro hv
    cases v with
    | chunk c => simp [PyVal.isChunk] at hv
    | other s => exact ⟨rfl, rfl⟩
  · intro l' hl hok x hx
    cases v with
    | other s =>
      rcases hok with hok | hok
      · rw [show insertVal l i (PyVal.other s) = Except.error PyErr.typeError
          from rfl] at hok
        cases hok
      · rw [show setItemVal l i (PyVal.other s) = Except.error PyErr.typeError
          from rfl] at hok
        cases hok
    | chunk c =>
      rcases hok with hok | hok
      · have he : insertVal l i (PyVal.chunk c) = Except.ok
            (l.take ((if i < 0 then max 0 ((l.length : Int) + i)
              else min i (l.length : Int)).toNat) ++ PyVal.chunk c ::
              l.drop ((if i < 0 then max 0 ((l.length : Int) + i)
                else min i (l.length : Int)).toNat)) := rfl
        rw [he] at hok
        injection hok with hok
        subst hok
        rcases List.mem_append.mp hx with hx | hx
        · exact hl x (List.take_subset _ _ hx)
        · rcases List.mem_cons.mp hx with hx | hx
          · subst hx; rfl
          · exact hl x (List.drop_subset _ _ hx)
      · have he : setItemVal l i (PyVal.chunk c) =
            (if 0 ≤ i ∧ i < (l.length : Int) then
              Except.ok (l.set i.toNat (PyVal.chunk c))
            else if -(l.length : Int) ≤ i ∧ i < 0 then
              Except.ok (l.set (i + l.length).toNat (PyVal.chunk c))
            else Except.error PyErr.indexError) := rfl
        rw [he] at hok
        by_cases h1 : 0 ≤ i ∧ i < (l.length : Int)
        · rw [if_pos h1] at hok
          injection hok with hok
          subst hok
          rcases List.mem_or_eq_of_mem_set hx with hx | hx
          · exact hl x hx
          · subst hx; rfl
        · rw [if_neg h1] at hok
          by_cases h2 : -(l.length : Int) ≤ i ∧ i < 0
          · rw [if_pos h2] at hok
            injection hok with hok
            subst hok
            rcases List.mem_or_eq_of_mem_set hx with hx | hx
            · exact hl x hx
            · subst hx; rfl
          · rw [if_neg h2] at hok
            cases hok

/-- Witness for C10 at concrete inputs: a string value is rejected by
both operations on the empty list, and inserting a chunk into an
all-chunk list keeps every element a chunk. -/
theorem chunklist_type_check_witness :
    (insertVal [] 0 (PyVal.other "x") = .error .typeError ∧
      setItemVal [] 0 (PyVal.other "x") = .error .typeError) ∧
    (∀ x ∈ [PyVal.chunk chCJK, PyVal.chunk Chunk.space], x.isChunk = true) :=
  ⟨(chunklist_type_check [] 0 (PyVal.other "x")).1 rfl,
   (chunklist_type_check [PyVal.chunk Chunk.space] 0 (PyVal.chunk chCJK)).2
     [PyVal.chunk chCJK, PyVal.chunk Chunk.space] (by decide)
     (Or.inl rfl)⟩

